import Mathlib

/-!
Verification of the experiments subsystem of dvc (`dvc/repo/experiments/__init__.py`).

Strings from the Python code are modelled as `List Char`.  Python dicts are
modelled as association lists with insertion-order preserving overwrite
(`dictInsert`), matching CPython semantics for the membership and lookup facts
proved here.
-/

namespace DvcExp

/-- Characters matched by the regex class `[0-9a-f]` used for `rev` and
`baseline_rev` in `Experiments.STASH_EXPERIMENT_RE`. -/
def isHexChar (c : Char) : Bool :=
  (('0' ≤ c) && (c ≤ '9')) || (('a' ≤ c) && (c ≤ 'f'))

/-- The delimiter characters excluded from the `name` group of
`STASH_EXPERIMENT_RE`, i.e. the regex class `[^~^:\\?\[\]*]` negated:
tilde, caret, colon, backslash, question mark, square brackets, star. -/
def isDelim (c : Char) : Bool :=
  (c == '~') || (c == '^') || (c == ':') || (c == '\\') ||
  (c == '?') || (c == '[') || (c == ']') || (c == '*')

/-- If `p` is a literal starting segment of `s`, return the remainder,
else `none`.  Used for the literal part `commit: dvc-exp:` of the regex. -/
def dropExact : List Char → List Char → Option (List Char)
  | [], s => some s
  | _ :: _, [] => none
  | p :: ps, c :: cs => if c = p then dropExact ps cs else none

/-- The literal segment of `STASH_EXPERIMENT_RE`: the non-capturing group
`(?:commit: )` followed by the literal `dvc-exp:`. -/
def STASH_MSG_HEADER : List Char := "commit: dvc-exp:".toList

/-- The result of a successful `STASH_EXPERIMENT_RE` match: the four named
groups `rev`, `baseline_rev`, `name`, `branch` (the last one optional). -/
structure ParsedStash where
  rev : List Char
  baseline_rev : List Char
  name : List Char
  branch : Option (List Char)
deriving DecidableEq, Repr

/-- Matching of the tail of `STASH_EXPERIMENT_RE` (after the literal header)
against the rest of the message, with exact Python `re` semantics:

* `(?P<rev>[0-9a-f]+)` / `(?P<baseline_rev>[0-9a-f]+)`: greedy; since `:` is
  not a hex character, backtracking into these groups can never help, so each
  is the maximal hex run and must be non-empty and followed by `:`.
* `:(?P<name>[^~^:\\?\[\]*]*)`: greedy; the negated class matches every
  character (including newline) except the eight delimiters, so `name` is the
  maximal such run; backtracking into `name` can never produce a match that
  the greedy run misses, because a shortened run leaves the position on a
  non-delimiter character where neither `:` nor `$` can match.
* `(:(?P<branch>.+))?$`: `.` excludes newline, and `$` matches at the end of
  the string or just before one final trailing newline.

The function is a deterministic equivalent of the backtracking regex on all
inputs (checked exhaustively against CPython `re` on randomized inputs while
deriving it). -/
def parseAfterHeader (s1 : List Char) : Option ParsedStash :=
  let h1 := s1.takeWhile isHexChar
  let r1 := s1.dropWhile isHexChar
  if h1 = [] ∨ r1.head? ≠ some ':' then none else
  let s2 := r1.tail
  let h2 := s2.takeWhile isHexChar
  let r2 := s2.dropWhile isHexChar
  if h2 = [] ∨ r2.head? ≠ some ':' then none else
  let s3 := r2.tail
  let n := s3.takeWhile (fun c => !(isDelim c))
  let t := s3.dropWhile (fun c => !(isDelim c))
  if t = [] then some ⟨h1, h2, n, none⟩
  else if t.head? = some ':' then
    let t2 := t.tail
    let b := t2.takeWhile (fun c => c != '\n')
    let u := t2.dropWhile (fun c => c != '\n')
    if b = [] then none
    else if u = [] ∨ u = ['\n'] then some ⟨h1, h2, n, some b⟩
    else none
  else none

/-- `Experiments.STASH_EXPERIMENT_RE.match(msg)` as a function: anchored at
the start of the string (Python `re.match`), literal header, then the grammar
tail. -/
def parseStashMsg (s : List Char) : Option ParsedStash :=
  (dropExact STASH_MSG_HEADER s).bind parseAfterHeader

/-- `Experiments._stash_msg(rev, baseline_rev, branch, name)`: formats
`STASH_EXPERIMENT_FORMAT = "dvc-exp:{rev}:{baseline_rev}:{name}"`, with the
Python truthiness conventions: an empty or absent `baseline_rev` falls back
to `rev`, an absent or empty `name` is formatted as the empty string, and
`:branch` is appended only when `branch` is truthy (present and non-empty). -/
def stash_msg (rev baseline_rev : List Char) (branch name : Option (List Char)) :
    List Char :=
  let baseline := if baseline_rev = [] then rev else baseline_rev
  let nm := match name with
    | some n => n
    | none => []
  let msg := "dvc-exp:".toList ++ rev ++ [':'] ++ baseline ++ [':'] ++ nm
  match branch with
  | some b => if b = [] then msg else msg ++ [':'] ++ b
  | none => msg

/-- Python dict assignment `d[k] = v` on a dict represented as an association
list: overwrite in place (preserving insertion order) when the key is
present, append a new binding otherwise. -/
def dictInsert {α β : Type} [DecidableEq α] (k : α) (v : β) :
    List (α × β) → List (α × β)
  | [] => [(k, v)]
  | (k0, v0) :: d => if k0 = k then (k, v) :: d else (k0, v0) :: dictInsert k v d

/-- Python `d.update(kvs)`. -/
def dictUpdate {α β : Type} [DecidableEq α] (d : List (α × β))
    (kvs : List (α × β)) : List (α × β) :=
  kvs.foldl (fun d kv => dictInsert kv.1 kv.2 d) d

/-- Python `k in d` / `d[k]` lookup. -/
def dlookup {α β : Type} [DecidableEq α] (k : α) : List (α × β) → Option β
  | [] => none
  | (k0, v) :: d => if k0 = k then some v else dlookup k d

/-- Python `str.strip()` whitespace characters (the ASCII ones: space, tab,
newline, carriage return, vertical tab, form feed). -/
def isPySpace (c : Char) : Bool :=
  (c == ' ') || (c == '\t') || (c == '\n') || (c == '\r') ||
  (c == Char.ofNat 11) || (c == Char.ofNat 12)

/-- Python `str.strip()`. -/
def pstrip (s : List Char) : List Char :=
  ((s.dropWhile isPySpace).reverse.dropWhile isPySpace).reverse

/-- The `Experiments.StashEntry` namedtuple
`(index, rev, baseline_rev, branch, name)`; `index` is `None` for ad hoc
(non-staged) runs, `branch` and `name` are the optional regex groups. -/
structure StashEntry where
  index : Option Nat
  rev : List Char
  baseline_rev : List Char
  branch : Option (List Char)
  name : Option (List Char)
deriving DecidableEq, Repr

/-- One git stash entry as consumed by `Experiments.stash_revs`: its reflog
message and the sha of the stash commit. -/
structure GitStashItem where
  message : List Char
  new_sha : List Char
deriving DecidableEq, Repr

/-- Worker loop of `Experiments.stash_revs` (lines 111-125): enumerate the
stash, match each stripped message against `STASH_EXPERIMENT_RE`, and for
each match store a `StashEntry` keyed by the stash commit sha. -/
def stashRevsAux : Nat → List GitStashItem → List (List Char × StashEntry) →
    List (List Char × StashEntry)
  | _, [], revs => revs
  | i, item :: rest, revs =>
    match parseStashMsg (pstrip item.message) with
    | some m =>
      stashRevsAux (i + 1) rest
        (dictInsert item.new_sha
          ⟨some i, m.rev, m.baseline_rev, m.branch, some m.name⟩ revs)
    | none => stashRevsAux (i + 1) rest revs

/-- `Experiments.stash_revs`. -/
def stashRevs (stash : List GitStashItem) : List (List Char × StashEntry) :=
  stashRevsAux 0 stash []

/-- The working set `to_run` computed by `Experiments.reproduce`
(lines 408-423): a copy of `stash_revs` when `revs is None`, otherwise each
requested rev mapped to its ledger entry when staged, and to the ad hoc
entry `StashEntry(None, rev, rev, None, None)` otherwise. -/
def reproduceToRun (stash : List GitStashItem) (revs : Option (List (List Char))) :
    List (List Char × StashEntry) :=
  let sr := stashRevs stash
  match revs with
  | none => sr
  | some rs =>
    rs.foldl (fun acc rev =>
      dictInsert rev
        (match dlookup rev sr with
         | some e => e
         | none => ⟨none, rev, rev, none, none⟩) acc) []

/-- Insertion step of Python `sorted(xs, reverse=True)` on naturals. -/
def insertDesc (x : Nat) : List Nat → List Nat
  | [] => [x]
  | y :: ys => if y ≤ x then x :: y :: ys else y :: insertDesc x ys

/-- Python `sorted(xs, reverse=True)` on naturals. -/
def sortDesc (l : List Nat) : List Nat := l.foldr insertDesc []

/-- The `to_drop` computation of `Experiments.reproduce` (lines 433-450).
The generator guard `if rev in stash_revs` is the `isSome` of the lookup, and
the indexing `stash_revs[rev][0]` reads the `index` field of the entry, which
is always set for ledger entries (lemma `stashRevs_index_isSome`); the result
is sorted in reverse (descending) order, and `stash.drop` is then called on
its elements in list order. -/
def reproduceToDrop (sr : List (List Char × StashEntry))
    (toRunKeys execKeys : List (List Char)) (keep_stash : Bool) : List Nat :=
  if keep_stash then
    sortDesc (execKeys.filterMap (fun rev => (dlookup rev sr).bind (fun e => e.index)))
  else
    sortDesc (toRunKeys.filterMap (fun rev => (dlookup rev sr).bind (fun e => e.index)))

/-- Terminal outcome of one worker future in `Experiments._reproduce`: a
successful future yields the pairs collected by `_collect_executor`
(resulting experiment commit mapped to the experiment content hash); a
failure carries an exception (possibly `CheckpointKilledError`); a future
cancelled before starting raises `CancelledError` when queried. -/
inductive WorkerOutcome
  | success (collected : List (List Char × List Char))
  | failed (checkpointKilled : Bool)
  | cancelled
deriving DecidableEq, Repr

/-- The uncaught Python exception that can abort the harvesting loop of
`Experiments._reproduce`: for a future cancelled before starting,
`future.exception()` raises `CancelledError`.  That call (line 528) sits
outside the `try:` of lines 530-549, so the `except CancelledError` at
line 544 never catches it. -/
inductive ReproduceAbort
  | cancelledError
deriving DecidableEq, Repr

/-- The folding step of the harvesting loop for futures that do not raise:
a successful future updates the per-stash-rev `defaultdict(dict)` with its
collected pairs, a failed future only logs. -/
def execStep (res : List (List Char × List (List Char × List Char)))
    (p : List Char × WorkerOutcome) :
    List (List Char × List (List Char × List Char)) :=
  match p.2 with
  | .success collected =>
      dictInsert p.1 (dictUpdate ((dlookup p.1 res).getD []) collected) res
  | _ => res

/-- The harvesting loop of `Experiments._reproduce` (lines 526-552), future
by future.  `exc = future.exception()` (line 528) is evaluated first for
every future and raises `CancelledError` when the future was cancelled
before starting; since that call is outside the `try:`, the exception
propagates, aborting the loop (and `_reproduce` itself) and discarding the
partial result dict.  A future with `exc is None` updates `result[rev]`
with the pairs collected by `_collect_executor`; a failed future only
logs. -/
def reproduceExecResultsAux :
    List (List Char × WorkerOutcome) →
    List (List Char × List (List Char × List Char)) →
    Except ReproduceAbort (List (List Char × List (List Char × List Char)))
  | [], res => .ok res
  | (rev, WorkerOutcome.success coll) :: rest, res =>
      reproduceExecResultsAux rest
        (dictInsert rev (dictUpdate ((dlookup rev res).getD []) coll) res)
  | (_, WorkerOutcome.failed _) :: rest, res => reproduceExecResultsAux rest res
  | (_, WorkerOutcome.cancelled) :: _, _ => .error ReproduceAbort.cancelledError

/-- The exec results of `Experiments._reproduce`: the harvesting loop run
from an empty `defaultdict(dict)`. -/
def reproduceExecResults (outcomes : List (List Char × WorkerOutcome)) :
    Except ReproduceAbort (List (List Char × List (List Char × List Char))) :=
  reproduceExecResultsAux outcomes []

/-- The value produced by `Experiments.reproduce` (lines 452-455): when
`_reproduce` returns, start from an empty dict and
`result.update(exp_result)` over every value of the exec results; when the
harvesting loop raised, the exception propagates out of `reproduce` and no
mapping is returned. -/
def reproduceResult (outcomes : List (List Char × WorkerOutcome)) :
    Except ReproduceAbort (List (List Char × List Char)) :=
  match reproduceExecResults outcomes with
  | .error e => .error e
  | .ok res => .ok (res.foldl (fun acc p => dictUpdate acc p.2) [])

/-- The parent links of a resolved commit object. -/
structure Commit where
  parents : List (List Char)
deriving DecidableEq, Repr

/-- The repository facts consumed by the experiments code: the current head
(`scm.get_rev()`), the baseline lookup (`Experiments._get_baseline`), commit
resolution (`scm.resolve_commit`), rev resolution (`scm.resolve_rev`,
assumed total here), the experiment refs containing a given rev
(`exp_refs_by_rev`), and the `EXEC_CHECKPOINT` ref. -/
structure ScmEnv where
  head : List Char
  get_baseline : List Char → Option (List Char)
  resolve_commit : List Char → Option Commit
  resolve_rev : List Char → List Char
  exp_refs_by_rev : List Char → List (List Char)
  exec_checkpoint : Option (List Char)

/-- Result of `Experiments.check_baseline`. -/
inductive CbResult
  | ok (rev : List Char)
  | baselineMismatch (exp_baseline : Option (List Char)) (head : List Char)
  | pyAttributeError
deriving DecidableEq, Repr

/-- `Experiments.check_baseline` (lines 583-596).  `first(exp_commit.parents)`
on a parentless commit is `None` in Python, and the subsequent `.hexsha`
access raises `AttributeError`; that path is `pyAttributeError` here. -/
def check_baseline (env : ScmEnv) (exp_rev : List Char) : CbResult :=
  let baseline_sha := env.head
  if exp_rev = baseline_sha then .ok exp_rev
  else
    match env.get_baseline exp_rev with
    | some b =>
        if b = baseline_sha then .ok b else .baselineMismatch (some b) baseline_sha
    | none =>
      match env.resolve_commit exp_rev with
      | some c =>
        match c.parents.head? with
        | some p =>
            if p = baseline_sha then .ok p else .baselineMismatch (some p) baseline_sha
        | none => .pyAttributeError
      | none => .baselineMismatch none baseline_sha

/-- Result of `Experiments.get_branch_by_rev`. -/
inductive BranchResult
  | ok (branch : Option (List Char))
  | multipleBranchError (rev : List Char)
deriving DecidableEq, Repr

/-- `Experiments.get_branch_by_rev` (lines 617-626). -/
def get_branch_by_rev (env : ScmEnv) (rev : List Char) (allow_multiple : Bool) :
    BranchResult :=
  match env.exp_refs_by_rev rev with
  | [] => .ok none
  | r :: rest =>
    if 1 < (r :: rest).length ∧ allow_multiple = false then .multipleBranchError rev
    else .ok (some r)

/-- The arguments `_resume_checkpoint` passes on to `_stash_exp`. -/
structure StageArgs where
  detach_rev : Option (List Char)
  baseline_rev : Option (List Char)
  branch : Option (List Char)
deriving DecidableEq, Repr

/-- The exceptions `_resume_checkpoint` can raise before staging. -/
inductive ResumeError
  | noCheckpoint
  | notFound
  | multipleBranch (rev : List Char)
deriving DecidableEq, Repr

/-- `Experiments.LAST_CHECKPOINT = ":last"`. -/
def LAST_CHECKPOINT : List Char := ":last".toList

/-- `Experiments._resume_checkpoint` (lines 334-381) up to its final
`_stash_exp` call: computes the `detach_rev`, `baseline_rev` and `branch`
arguments.  `params` is `none` when the `params` keyword is absent and
`some t` when it is present with Python truthiness `t`; `allow_multiple` is
keyword presence (`"params" in kwargs`), while the branching decision uses
truthiness (`kwargs.get("params", None)`).  The debug logging is elided. -/
def resume_checkpoint_args (env : ScmEnv) (checkpoint_resume : List Char)
    (params : Option Bool) : Except ResumeError StageArgs :=
  match (if checkpoint_resume = LAST_CHECKPOINT then env.exec_checkpoint
         else some (env.resolve_rev checkpoint_resume)) with
  | none => .error .noCheckpoint
  | some resume_rev =>
    match get_branch_by_rev env resume_rev params.isSome with
    | .multipleBranchError r => .error (.multipleBranch r)
    | .ok none => .error .notFound
    | .ok (some branch) =>
      let baseline_rev := env.get_baseline branch
      if params.getD false then .ok ⟨some resume_rev, baseline_rev, none⟩
      else .ok ⟨none, baseline_rev, some branch⟩

/-- The tuple recorded in the ledger entry staged by `_stash_exp`. -/
structure StashExpEntry where
  rev : List Char
  baseline_rev : List Char
  branch : Option (List Char)
  name : Option (List Char)
deriving DecidableEq, Repr

/-- The ledger entry produced by `Experiments._stash_exp` (lines 161-196):
the workspace is checked out detached at `detach_rev`, else at `branch`,
else at the current head, and the yielded rev of that checkout becomes the
recorded `rev`; `baseline_rev` defaults to that rev when `None`
(an `is None` check, lines 171-172); `branch` and `name` are recorded as
given. -/
def stash_exp_entry (env : ScmEnv) (a : StageArgs) (name : Option (List Char)) :
    StashExpEntry :=
  let rev := match a.detach_rev with
    | some d => env.resolve_rev d
    | none =>
      match a.branch with
      | some b => env.resolve_rev b
      | none => env.head
  ⟨rev, a.baseline_rev.getD rev, a.branch, name⟩

/-- The git operations performed during `Experiments._stash_exp`. -/
inductive ScmOp
  | stashPushWorkspace
  | stashApplyWorkspace
  | pruneLockfiles
  | detachHead
  | updateParams
  | packArgs
  | stashPushExp
  | detachExit
  | resetHard
  | stashPopWorkspace
deriving DecidableEq, Repr

/-- `Experiments._stash_exp` (lines 152-201) as a trace of git operations.

`scm.stash_workspace` is not under `src/`; modelled from the spec: a scoped
stash-push / stash-pop style transaction — on entry the workspace is stashed
(`ws` is true when something was stashed), and on exit (normal or
exceptional) the previously stashed workspace is restored by a stash pop
when something had been stashed.

`bd` is the truthiness of `detach_rev or branch`, `params` of the `params`
argument.  Each `fail` flag makes the corresponding operation raise; the
trace records the operations in execution order, including the raising one,
and the returned flag is true exactly on the non-raising path.  The
`try/finally` block guaranteeing `scm.reset(hard=True)` spans only the
`detach_head` context (lines 169-199); `stash.apply` and `_prune_lockfiles`
(lines 157-159) run before it, directly inside the `stash_workspace` scope. -/
def stash_exp_trace (bd ws params : Bool)
    (failApply failPrune failDetach failParams failPack failPush : Bool) :
    List ScmOp × Bool :=
  let popTail : List ScmOp := if ws then [ScmOp.stashPopWorkspace] else []
  let t0 : List ScmOp := [ScmOp.stashPushWorkspace]
  if !bd && ws && failApply then (t0 ++ [ScmOp.stashApplyWorkspace] ++ popTail, false)
  else
    let t1 := t0 ++ (if !bd && ws then [ScmOp.stashApplyWorkspace] else [])
    if !bd && ws && failPrune then (t1 ++ [ScmOp.pruneLockfiles] ++ popTail, false)
    else
      let t2 := t1 ++ (if !bd && ws then [ScmOp.pruneLockfiles] else [])
      if failDetach then (t2 ++ [ScmOp.detachHead, ScmOp.resetHard] ++ popTail, false)
      else
        let t3 := t2 ++ [ScmOp.detachHead]
        if params && failParams then
          (t3 ++ [ScmOp.updateParams, ScmOp.detachExit, ScmOp.resetHard] ++ popTail, false)
        else
          let t4 := t3 ++ (if params then [ScmOp.updateParams] else [])
          if failPack then
            (t4 ++ [ScmOp.packArgs, ScmOp.detachExit, ScmOp.resetHard] ++ popTail, false)
          else
            let t5 := t4 ++ [ScmOp.packArgs]
            if failPush then
              (t5 ++ [ScmOp.stashPushExp, ScmOp.detachExit, ScmOp.resetHard] ++ popTail,
               false)
            else
              (t5 ++ [ScmOp.stashPushExp, ScmOp.detachExit, ScmOp.resetHard] ++ popTail,
               true)

/-- Scan a trace checking that every restore of the stashed workspace is
preceded by a hard reset. -/
def resetBeforeRestoreAux : Bool → List ScmOp → Bool
  | _, [] => true
  | _, ScmOp.resetHard :: rest => resetBeforeRestoreAux true rest
  | seen, ScmOp.stashPopWorkspace :: rest => seen && resetBeforeRestoreAux seen rest
  | seen, _ :: rest => resetBeforeRestoreAux seen rest

/-- Every restore of the stashed workspace in the trace has an earlier hard
reset. -/
def resetBeforeRestore (t : List ScmOp) : Bool := resetBeforeRestoreAux false t

/-- The three handoff refs `EXEC_HEAD`, `EXEC_MERGE`, `EXEC_BASELINE`. -/
structure RefState where
  exec_head : Option (List Char)
  exec_merge : Option (List Char)
  exec_baseline : Option (List Char)
deriving DecidableEq, Repr

/-- Events of `Experiments._init_executors`: handoff ref writes, worker
construction (recording the ref state visible at construction time), and
handoff ref removal. -/
inductive InitEvent
  | setHead (v : List Char)
  | setMerge (v : List Char)
  | setBaseline (v : List Char)
  | constructWorker (stash_rev : List Char) (refs : RefState)
  | removeHead
  | removeMerge
  | removeBaseline
deriving DecidableEq, Repr

/-- The per-unit loop of `Experiments._init_executors` (lines 461-479): set
the three handoff refs to the unit values, then construct its worker. -/
def init_executors_aux : List (List Char × StashEntry) → RefState →
    List InitEvent × RefState
  | [], s => ([], s)
  | (stash_rev, item) :: rest, _ =>
    let s1 : RefState := ⟨some item.rev, some stash_rev, some item.baseline_rev⟩
    let r := init_executors_aux rest s1
    (InitEvent.setHead item.rev :: InitEvent.setMerge stash_rev ::
       InitEvent.setBaseline item.baseline_rev ::
       InitEvent.constructWorker stash_rev s1 :: r.1, r.2)

/-- `Experiments._init_executors` (lines 457-484): run the per-unit loop,
then remove all three handoff refs (lines 481-482). -/
def init_executors (toRun : List (List Char × StashEntry)) (s : RefState) :
    List InitEvent × RefState :=
  let r := init_executors_aux toRun s
  (r.1 ++ [InitEvent.removeHead, InitEvent.removeMerge, InitEvent.removeBaseline],
   ⟨none, none, none⟩)

/-- Modelled from the spec: `ExpRefInfo.from_ref(ref).name`
(`dvc/repo/experiments/base.py`, not under `src/`): the experiment name
component of an experiment ref, its final slash-separated segment. -/
def refInfoName (ref : List Char) : List Char :=
  ref.foldl (fun acc c => if c = '/' then [] else acc ++ [c]) []

/-- The publish-time divergence exceptions. -/
inductive CollectErr
  | checkpointExistsError (name : List Char)
  | experimentExistsError (name : List Char)
deriving DecidableEq, Repr

/-- The `on_diverged` callback defined inside `Experiments._collect_executor`
(lines 567-571): a diverged checkpoint ref raises `CheckpointExistsError`,
any other diverged ref raises `ExperimentExistsError`. -/
def on_diverged (ref : List Char) (checkpoint : Bool) : CollectErr :=
  if checkpoint then .checkpointExistsError (refInfoName ref)
  else .experimentExistsError (refInfoName ref)

/-- A ref produced by a worker, as seen at publish time: its name, whether
it is a checkpoint ref, and whether it diverges (it already exists in the
owning repository pointing at a different commit). -/
structure RefFetch where
  name : List Char
  is_checkpoint : Bool
  diverged : Bool
deriving DecidableEq, Repr

/-- Modelled from the spec: `executor.fetch_exps`
(`dvc/repo/experiments/executor.py`, not under `src/`): fetch the produced
commits into the owning repository; for each resulting ref that already
exists pointing elsewhere while `force` is false, invoke
`on_diverged(ref, is_checkpoint)`, which raises; every ref not stopped this
way is yielded. -/
def fetch_exps (force : Bool) (refs : List RefFetch)
    (onDiv : List Char → Bool → CollectErr) :
    Except CollectErr (List (List Char)) :=
  match refs with
  | [] => .ok []
  | r :: rest =>
    if r.diverged && !force then .error (onDiv r.name r.is_checkpoint)
    else
      match fetch_exps force rest onDiv with
      | .ok l => .ok (r.name :: l)
      | .error e => .error e

/-- `Experiments._collect_executor` (lines 555-581): fetch the produced refs
with the default `on_diverged` policy, then map each collected ref that
resolves via `scm.get_ref` to the experiment hash. -/
def collect_executor (get_ref : List Char → Option (List Char)) (force : Bool)
    (refs : List RefFetch) (exp_hash : List Char) :
    Except CollectErr (List (List Char × List Char)) :=
  match fetch_exps force refs on_diverged with
  | .error e => .error e
  | .ok names =>
    .ok (names.foldl (fun res ref =>
      match get_ref ref with
      | some exp_rev => dictInsert exp_rev exp_hash res
      | none => res) [])

/-- A small concrete repository environment used to instantiate theorems:
head `h`; rev `x` has baseline `h`; branch ref `br` has baseline `bl`;
commit `q` has parent `h`; rev `c` lies on the single experiment branch
`br`; rev `m` lies on two experiment branches. -/
def envW : ScmEnv where
  head := ['h']
  get_baseline := fun r =>
    if r = ['x'] then some ['h']
    else if r = ['b', 'r'] then some ['b', 'l']
    else none
  resolve_commit := fun r => if r = ['q'] then some ⟨[['h']]⟩ else none
  resolve_rev := fun r => r
  exp_refs_by_rev := fun r =>
    if r = ['c'] then [['b', 'r']]
    else if r = ['m'] then [['b', '1'], ['b', '2']]
    else []
  exec_checkpoint := some ['c']

/-- A concrete one-entry stash used by witness theorems: a single stash
commit `s` whose reflog message is a valid experiment stash message. -/
def stashW : List GitStashItem := [⟨"commit: dvc-exp:a:b:n".toList, ['s']⟩]

/-! ### Theorems -/

theorem dropExact_append (p s : List Char) : dropExact p (p ++ s) = some s := by
  induction p with
  | nil => rfl
  | cons c cs ih => simp [dropExact, ih]

theorem takeWhile_append_of {p : Char → Bool} (xs ys : List Char)
    (hx : ∀ c ∈ xs, p c = true)
    (hy : ∀ y, ys.head? = some y → p y = false) :
    (xs ++ ys).takeWhile p = xs ∧ (xs ++ ys).dropWhile p = ys := by
  induction xs with
  | nil =>
    cases ys with
    | nil => simp
    | cons y ys => simp [List.takeWhile_cons, List.dropWhile_cons, hy y rfl]
  | cons x xs ih =>
    have hx1 : p x = true := hx x (by simp)
    have h2 := ih (fun c hc => hx c (by simp [hc]))
    simp [List.takeWhile_cons, List.dropWhile_cons, hx1, h2.1, h2.2]

theorem takeWhile_all {p : Char → Bool} (xs : List Char)
    (hx : ∀ c ∈ xs, p c = true) :
    xs.takeWhile p = xs ∧ xs.dropWhile p = [] := by
  have h := takeWhile_append_of xs [] hx (fun y hy => by simp at hy)
  simpa using h

/-- Claim C1 is false as stated: with `rev = "a"`, `baseline_rev = "b"`,
`name = ""` and `branch = "\n"` (a non-empty string, so within the stated
grammar constraints), `STASH_EXPERIMENT_RE` does not match the formatted
message at all, because `.` in the branch group excludes newline, so the
original tuple is not recovered. -/
theorem C1_counterexample :
    (['a'].all isHexChar = true) ∧ (['b'].all isHexChar = true) ∧
    (['\n'] ≠ ([] : List Char)) ∧
    parseStashMsg ("commit: ".toList ++ stash_msg ['a'] ['b'] (some ['\n']) (some []))
      = none := by decide

/-- Claim C1 (amended): the round trip holds for every tuple within the
grammar constraints, provided additionally that the branch contains no
newline character: parsing `"commit: " ++ _stash_msg(rev, baseline_rev,
branch, name)` with `STASH_EXPERIMENT_RE` recovers exactly the original
`rev`, `baseline_rev`, `name` and `branch`. -/
theorem C1_roundtrip (rev baseline name : List Char) (branch : Option (List Char))
    (hrev : rev ≠ [] ∧ ∀ c ∈ rev, isHexChar c = true)
    (hbase : baseline ≠ [] ∧ ∀ c ∈ baseline, isHexChar c = true)
    (hname : ∀ c ∈ name, isDelim c = false)
    (hbranch : branch.elim True (fun b => b ≠ [] ∧ ∀ c ∈ b, ¬(c = '\n'))) :
    parseStashMsg ("commit: ".toList ++ stash_msg rev baseline branch (some name))
      = some ⟨rev, baseline, name, branch⟩ := by
  have hhexcolon : isHexChar ':' = false := by decide
  have hdelimcolon : (!(isDelim ':')) = false := by decide
  have hsplit : ∀ t : List Char,
      "commit: ".toList ++ ("dvc-exp:".toList ++ t) = STASH_MSG_HEADER ++ t := by
    intro t
    have h : "commit: ".toList ++ "dvc-exp:".toList = STASH_MSG_HEADER := by decide
    rw [← List.append_assoc, h]
  cases branch with
  | none =>
    have hmsg : stash_msg rev baseline none (some name)
        = "dvc-exp:".toList ++ (rev ++ ':' :: (baseline ++ ':' :: name)) := by
      simp [stash_msg, hbase.1, List.append_assoc]
    rw [hmsg, hsplit]
    have h1 := takeWhile_append_of (p := isHexChar) rev (':' :: (baseline ++ ':' :: name))
      hrev.2 (fun y hy => by simp at hy; subst hy; decide)
    have h2 := takeWhile_append_of (p := isHexChar) baseline (':' :: name)
      hbase.2 (fun y hy => by simp at hy; subst hy; decide)
    have h3 := takeWhile_all (p := fun c => !(isDelim c)) name
      (fun c hc => by simp [hname c hc])
    simp only [parseStashMsg, dropExact_append, Option.some_bind]
    simp only [parseAfterHeader, h1.1, h1.2, List.tail_cons, List.head?_cons]
    simp only [h2.1, h2.2, List.tail_cons, List.head?_cons, h3.1, h3.2]
    simp [hrev.1, hbase.1]
  | some b =>
    have hb1 : b ≠ [] := hbranch.1
    have hb2 : ∀ c ∈ b, (c != '\n') = true := by
      intro c hc
      simpa using hbranch.2 c hc
    have hmsg : stash_msg rev baseline (some b) (some name)
        = "dvc-exp:".toList ++ (rev ++ ':' :: (baseline ++ ':' :: (name ++ ':' :: b))) := by
      simp [stash_msg, hbase.1, hb1, List.append_assoc]
    rw [hmsg, hsplit]
    have h1 := takeWhile_append_of (p := isHexChar) rev
      (':' :: (baseline ++ ':' :: (name ++ ':' :: b)))
      hrev.2 (fun y hy => by simp at hy; subst hy; decide)
    have h2 := takeWhile_append_of (p := isHexChar) baseline (':' :: (name ++ ':' :: b))
      hbase.2 (fun y hy => by simp at hy; subst hy; decide)
    have h3 := takeWhile_append_of (p := fun c => !(isDelim c)) name (':' :: b)
      (fun c hc => by simp [hname c hc])
      (fun y hy => by simp at hy; subst hy; decide)
    have h4 := takeWhile_all (p := fun c => c != '\n') b hb2
    simp only [parseStashMsg, dropExact_append, Option.some_bind]
    simp only [parseAfterHeader, h1.1, h1.2, List.tail_cons, List.head?_cons]
    simp only [h2.1, h2.2, List.tail_cons, List.head?_cons, h3.1, h3.2, h4.1, h4.2]
    simp [hb1, hrev.1, hbase.1]

/-- Claim C2: `check_baseline(rev)` returns `rev` when it equals the current
head; otherwise it resolves the baseline via `get_baseline`, falling back to
the first parent of the commit of `rev` when `get_baseline` returns `None`,
returns the resolved baseline when it equals the current head, and raises
`BaselineMismatchError` when it differs. -/
theorem C2_check_baseline (env : ScmEnv) (rev : List Char) :
    (rev = env.head → check_baseline env rev = .ok rev) ∧
    (rev ≠ env.head →
      (∀ b, env.get_baseline rev = some b →
        (b = env.head → check_baseline env rev = .ok b) ∧
        (b ≠ env.head →
          check_baseline env rev = .baselineMismatch (some b) env.head)) ∧
      (env.get_baseline rev = none →
        ∀ c p, env.resolve_commit rev = some c → c.parents.head? = some p →
          (p = env.head → check_baseline env rev = .ok p) ∧
          (p ≠ env.head →
            check_baseline env rev = .baselineMismatch (some p) env.head))) := by
  refine ⟨fun h => by simp [check_baseline, h], fun h => ⟨?_, ?_⟩⟩
  · intro b hb
    constructor <;> intro hbh <;> simp [check_baseline, h, hb, hbh]
  · intro hn c p hc hp
    constructor <;> intro hph <;> simp [check_baseline, h, hn, hc, hp, hph]

/-- Witness for C2_check_baseline: in `envW`, rev `x` has recorded baseline
`h`, which is the current head, and rev `q` falls back to its parent `h`. -/
theorem C2_check_baseline_witness :
    check_baseline envW ['x'] = .ok ['h'] ∧ check_baseline envW ['q'] = .ok ['h'] :=
  ⟨(((C2_check_baseline envW ['x']).2 (by decide)).1 ['h'] (by decide)).1 rfl,
   (((C2_check_baseline envW ['q']).2 (by decide)).2 (by decide) ⟨[['h']]⟩ ['h']
      (by decide) rfl).1 rfl⟩

/-- Claim C5 counterexample: for a rev contained in no experiment branch
(`z` in `envW`), `get_branch_by_rev` does not raise MultipleBranch (the
claimed iff condition indeed fails), but it returns `None` rather than
"exactly one branch name". -/
theorem C5_counterexample :
    envW.exp_refs_by_rev ['z'] = [] ∧
    get_branch_by_rev envW ['z'] false = .ok none ∧
    ∀ b, get_branch_by_rev envW ['z'] false ≠ .ok (some b) := by
  refine ⟨by decide, by decide, ?_⟩
  intro b h
  rw [show get_branch_by_rev envW ['z'] false = .ok none from by decide] at h
  exact Option.noConfusion (BranchResult.ok.inj h)

/-- Claim C5 (amended): `get_branch_by_rev` raises MultipleBranch iff at
least 2 experiment branches contain `rev` and `allow_multiple` is false;
otherwise it returns the first containing branch when at least one exists,
and `None` when no branch contains `rev`. -/
theorem C5_get_branch (env : ScmEnv) (rev : List Char) (allow_multiple : Bool) :
    (get_branch_by_rev env rev allow_multiple = .multipleBranchError rev ↔
      2 ≤ (env.exp_refs_by_rev rev).length ∧ allow_multiple = false) ∧
    (env.exp_refs_by_rev rev = [] →
      get_branch_by_rev env rev allow_multiple = .ok none) ∧
    (∀ b bs, env.exp_refs_by_rev rev = b :: bs →
      ¬(2 ≤ (env.exp_refs_by_rev rev).length ∧ allow_multiple = false) →
      get_branch_by_rev env rev allow_multiple = .ok (some b)) := by
  rcases h : env.exp_refs_by_rev rev with _ | ⟨b, bs⟩
  · exact ⟨by simp [get_branch_by_rev, h], fun _ => by simp [get_branch_by_rev, h],
      fun b bs hb hno => absurd hb (by simp)⟩
  · have hlen : (2 ≤ (b :: bs).length ∧ allow_multiple = false) ↔
        (1 < (b :: bs).length ∧ allow_multiple = false) := by
      constructor <;> intro hx <;> exact ⟨by omega, hx.2⟩
    by_cases hc : 1 < (b :: bs).length ∧ allow_multiple = false
    · refine ⟨?_, fun he => absurd he (by simp),
        fun b0 bs0 hb hno => absurd (hlen.mpr hc) hno⟩
      simp only [get_branch_by_rev, h, if_pos hc]
      exact ⟨fun _ => hlen.mpr hc, fun _ => trivial⟩
    · refine ⟨?_, fun he => absurd he (by simp), ?_⟩
      · simp only [get_branch_by_rev, h, if_neg hc]
        exact ⟨fun hx => BranchResult.noConfusion hx, fun hx => absurd (hlen.mp hx) hc⟩
      · intro b0 bs0 hb hno
        obtain ⟨rfl, rfl⟩ := List.cons.inj hb
        simp only [get_branch_by_rev, h, if_neg hc]

/-- Witness for C5_get_branch: rev `m` lies on two branches so MultipleBranch
is raised without allow_multiple; rev `c` lies on exactly branch `br`, which
is returned. -/
theorem C5_get_branch_witness :
    get_branch_by_rev envW ['m'] false = .multipleBranchError ['m'] ∧
    get_branch_by_rev envW ['c'] false = .ok (some ['b', 'r']) :=
  ⟨(C5_get_branch envW ['m'] false).1.mpr ⟨by decide, rfl⟩,
   (C5_get_branch envW ['c'] false).2.2 ['b', 'r'] [] (by decide) (by decide)⟩

theorem fetch_exps_first_diverged (pre post : List RefFetch) (r : RefFetch)
    (onDiv : List Char → Bool → CollectErr)
    (hpre : ∀ q ∈ pre, q.diverged = false) (hr : r.diverged = true) :
    fetch_exps false (pre ++ r :: post) onDiv = .error (onDiv r.name r.is_checkpoint) := by
  induction pre with
  | nil => simp [fetch_exps, hr]
  | cons q qs ih =>
    have hq : q.diverged = false := hpre q (by simp)
    have h2 := ih (fun x hx => hpre x (by simp [hx]))
    simp [fetch_exps, hq, h2]

/-- Claim C9: collecting a worker with `force` false invokes the default
`on_diverged` on the first resulting ref that already exists pointing at a
different commit, and that callback raises `CheckpointExistsError` exactly
when the diverged ref is a checkpoint ref, `ExperimentExistsError`
otherwise.  (The fetch context is modelled from the spec, the callback is
from `_collect_executor`.) -/
theorem C9_on_diverged (get_ref : List Char → Option (List Char))
    (exp_hash : List Char) (pre post : List RefFetch) (r : RefFetch)
    (hpre : ∀ q ∈ pre, q.diverged = false) (hr : r.diverged = true) :
    (∀ ref, on_diverged ref true = .checkpointExistsError (refInfoName ref)) ∧
    (∀ ref, on_diverged ref false = .experimentExistsError (refInfoName ref)) ∧
    collect_executor get_ref false (pre ++ r :: post) exp_hash =
      .error
        (if r.is_checkpoint then CollectErr.checkpointExistsError (refInfoName r.name)
         else CollectErr.experimentExistsError (refInfoName r.name)) := by
  refine ⟨fun ref => rfl, fun ref => rfl, ?_⟩
  have h := fetch_exps_first_diverged pre post r on_diverged hpre hr
  simp [collect_executor, h, on_diverged]

/-- Witness for C9_on_diverged: a single diverged checkpoint ref raises
CheckpointExistsError. -/
theorem C9_on_diverged_witness :
    collect_executor (fun _ => none) false [⟨['r'], true, true⟩] ['h'] =
      .error (CollectErr.checkpointExistsError (refInfoName ['r'])) := by
  have h := C9_on_diverged (fun _ => none) ['h'] [] [] ⟨['r'], true, true⟩
    (fun q hq => by simp at hq) rfl
  simpa using h.2.2

/-- Claim C6: when the checkpoint rev lies on exactly one experiment branch
whose baseline resolves, resuming with truthy params stages a detached,
unbranched entry at the checkpoint commit whose baseline is the branch
baseline, while resuming without params stages an entry extending that
branch, with the same baseline and no detaching. -/
theorem C6_resume (env : ScmEnv) (cr branch0 bl : List Char)
    (name : Option (List Char)) (resume_rev : List Char)
    (hres : (if cr = LAST_CHECKPOINT then env.exec_checkpoint
             else some (env.resolve_rev cr)) = some resume_rev)
    (hrefs : env.exp_refs_by_rev resume_rev = [branch0])
    (hbl : env.get_baseline branch0 = some bl) :
    (resume_checkpoint_args env cr (some true) =
        .ok ⟨some resume_rev, some bl, none⟩ ∧
      stash_exp_entry env ⟨some resume_rev, some bl, none⟩ name =
        ⟨env.resolve_rev resume_rev, bl, none, name⟩) ∧
    (resume_checkpoint_args env cr none =
        .ok ⟨none, some bl, some branch0⟩ ∧
      stash_exp_entry env ⟨none, some bl, some branch0⟩ name =
        ⟨env.resolve_rev branch0, bl, some branch0, name⟩) := by
  have hb1 : get_branch_by_rev env resume_rev true = .ok (some branch0) := by
    simp [get_branch_by_rev, hrefs]
  have hb2 : get_branch_by_rev env resume_rev false = .ok (some branch0) := by
    simp [get_branch_by_rev, hrefs]
  refine ⟨⟨?_, by simp [stash_exp_entry]⟩, ⟨?_, by simp [stash_exp_entry]⟩⟩
  · simp [resume_checkpoint_args, hres, hb1, hbl]
  · simp [resume_checkpoint_args, hres, hb2, hbl]

/-- Witness for C6_resume: resuming checkpoint rev `c` (on branch `br` with
baseline `bl`) in `envW`. -/
theorem C6_resume_witness :
    resume_checkpoint_args envW ['c'] (some true) =
        .ok ⟨some ['c'], some ['b', 'l'], none⟩ ∧
      resume_checkpoint_args envW ['c'] none =
        .ok ⟨none, some ['b', 'l'], some ['b', 'r']⟩ := by
  have h := C6_resume envW ['c'] ['b', 'r'] ['b', 'l'] none ['c']
    (by decide) (by decide) (by decide)
  exact ⟨h.1.1, h.2.1⟩

theorem init_executors_aux_mem (toRun : List (List Char × StashEntry))
    (s : RefState) (sr : List Char) (e : StashEntry) (h : (sr, e) ∈ toRun) :
    InitEvent.constructWorker sr ⟨some e.rev, some sr, some e.baseline_rev⟩ ∈
      (init_executors_aux toRun s).1 := by
  induction toRun generalizing s with
  | nil => cases h
  | cons p rest ih =>
    obtain ⟨psr, pe⟩ := p
    rcases List.mem_cons.mp h with h | h
    · obtain ⟨rfl, rfl⟩ := Prod.mk.inj h.symm
      simp [init_executors_aux]
    · simp only [init_executors_aux, List.mem_cons]
      exact Or.inr (Or.inr (Or.inr (Or.inr (ih _ h))))

theorem init_executors_aux_no_remove (toRun : List (List Char × StashEntry))
    (s : RefState) :
    ∀ ev ∈ (init_executors_aux toRun s).1,
      ev ≠ InitEvent.removeHead ∧ ev ≠ InitEvent.removeMerge ∧
        ev ≠ InitEvent.removeBaseline := by
  induction toRun generalizing s with
  | nil => intro ev hev; cases hev
  | cons p rest ih =>
    obtain ⟨psr, pe⟩ := p
    intro ev hev
    simp only [init_executors_aux, List.mem_cons] at hev
    rcases hev with rfl | rfl | rfl | rfl | hev
    · exact ⟨by simp, by simp, by simp⟩
    · exact ⟨by simp, by simp, by simp⟩
    · exact ⟨by simp, by simp, by simp⟩
    · exact ⟨by simp, by simp, by simp⟩
    · exact ih _ ev hev

/-- Claim C8: during `_init_executors`, each scheduled unit sees the three
handoff refs set to its own rev, its stash rev and its baseline rev at the
moment its worker is constructed; the three refs are removed only after
every worker of the batch is constructed; and none of the three refs exists
in the final state. -/
theorem C8_handoff_refs (toRun : List (List Char × StashEntry)) (s : RefState) :
    ((init_executors toRun s).2 = ⟨none, none, none⟩) ∧
    (∀ sr e, (sr, e) ∈ toRun →
      InitEvent.constructWorker sr ⟨some e.rev, some sr, some e.baseline_rev⟩ ∈
        (init_executors toRun s).1) ∧
    (∃ body, (init_executors toRun s).1 =
        body ++ [InitEvent.removeHead, InitEvent.removeMerge,
          InitEvent.removeBaseline] ∧
      ∀ ev ∈ body, ev ≠ InitEvent.removeHead ∧ ev ≠ InitEvent.removeMerge ∧
        ev ≠ InitEvent.removeBaseline) := by
  refine ⟨rfl, ?_, ?_⟩
  · intro sr e h
    simp only [init_executors, List.mem_append]
    exact Or.inl (init_executors_aux_mem toRun s sr e h)
  · exact ⟨(init_executors_aux toRun s).1, rfl, init_executors_aux_no_remove toRun s⟩

/-- Witness for C8_handoff_refs: a batch of one unit. -/
theorem C8_handoff_refs_witness :
    InitEvent.constructWorker ['s'] ⟨some ['r'], some ['s'], some ['b']⟩ ∈
      (init_executors [(['s'], ⟨some 0, ['r'], ['b'], none, none⟩)]
        ⟨some ['o'], none, none⟩).1 :=
  (C8_handoff_refs [(['s'], ⟨some 0, ['r'], ['b'], none, none⟩)]
    ⟨some ['o'], none, none⟩).2.1 ['s'] ⟨some 0, ['r'], ['b'], none, none⟩ (by simp)

/-- Claim C7 counterexample: when staging from a dirty workspace (no branch
or detach rev, something stashed) and `stash.apply(workspace)` raises, the
raise happens before the `try/finally` that performs the hard reset, so the
previously stashed workspace is restored with no intervening hard reset. -/
theorem C7_counterexample :
    (stash_exp_trace false true false true false false false false false).1 =
      [ScmOp.stashPushWorkspace, ScmOp.stashApplyWorkspace,
        ScmOp.stashPopWorkspace] ∧
    (stash_exp_trace false true false true false false false false false).2 = false ∧
    resetBeforeRestore
      (stash_exp_trace false true false true false false false false false).1
      = false := by decide

/-- Claim C7 (amended): on every exit path of `_stash_exp` other than a
failure inside the initial stash-apply / lockfile-pruning step, success or
exception, the workspace is hard-reset before the previously stashed
workspace is restored. -/
theorem C7_reset : ∀ bd ws params fA fP fD fU fK fS : Bool,
    (!bd && ws && (fA || fP)) = false →
    resetBeforeRestore (stash_exp_trace bd ws params fA fP fD fU fK fS).1
      = true := by decide

/-- Witness for C7_reset: the exit path where the experiment stash push
itself raises still hard-resets before restoring the workspace. -/
theorem C7_reset_witness :
    resetBeforeRestore
      (stash_exp_trace false true true false false false false false true).1
      = true :=
  C7_reset false true true false false false false false true (by decide)

theorem dlookup_dictInsert_self {α β : Type} [DecidableEq α] (k : α) (v : β)
    (d : List (α × β)) : dlookup k (dictInsert k v d) = some v := by
  induction d with
  | nil => simp [dictInsert, dlookup]
  | cons p rest ih =>
    obtain ⟨k0, v0⟩ := p
    by_cases h : k0 = k
    · simp [dictInsert, dlookup, h]
    · simp [dictInsert, dlookup, h, ih]

theorem dlookup_dictInsert_ne {α β : Type} [DecidableEq α] {k q : α} (h : q ≠ k)
    (v : β) (d : List (α × β)) : dlookup q (dictInsert k v d) = dlookup q d := by
  induction d with
  | nil => simp [dictInsert, dlookup, Ne.symm h]
  | cons p rest ih =>
    obtain ⟨k0, v0⟩ := p
    by_cases h0 : k0 = k
    · subst h0
      simp [dictInsert, dlookup, Ne.symm h]
    · simp [dictInsert, dlookup, h0, ih]

theorem dlookup_dictInsert_isSome {α β : Type} [DecidableEq α] (k q : α) (v : β)
    (d : List (α × β)) :
    (dlookup q (dictInsert k v d)).isSome = true ↔
      q = k ∨ (dlookup q d).isSome = true := by
  by_cases h : q = k
  · subst h
    simp [dlookup_dictInsert_self]
  · simp [dlookup_dictInsert_ne h v d, h]

theorem dlookup_dictInsert_eq_some {α β : Type} [DecidableEq α] {k q : α}
    {v w : β} {d : List (α × β)}
    (h : dlookup q (dictInsert k v d) = some w) :
    (q = k ∧ w = v) ∨ (q ≠ k ∧ dlookup q d = some w) := by
  by_cases hq : q = k
  · subst hq
    rw [dlookup_dictInsert_self] at h
    exact Or.inl ⟨rfl, (Option.some.inj h).symm⟩
  · rw [dlookup_dictInsert_ne hq] at h
    exact Or.inr ⟨hq, h⟩

theorem stashRevsAux_isSome (stash : List GitStashItem) :
    ∀ (i0 : Nat) (acc : List (List Char × StashEntry)) (k : List Char),
    (dlookup k (stashRevsAux i0 stash acc)).isSome = true ↔
      (∃ item ∈ stash, item.new_sha = k ∧
        (parseStashMsg (pstrip item.message)).isSome = true) ∨
      (dlookup k acc).isSome = true := by
  induction stash with
  | nil =>
    intro i0 acc k
    simp [stashRevsAux]
  | cons item rest ih =>
    intro i0 acc k
    cases hp : parseStashMsg (pstrip item.message) with
    | some m =>
      simp only [stashRevsAux, hp]
      rw [ih, dlookup_dictInsert_isSome]
      simp only [List.mem_cons, hp, Option.isSome_some]
      constructor
      · rintro (h | h | h)
        · rcases h with ⟨it, hit, hsha, hps⟩
          exact Or.inl ⟨it, Or.inr hit, hsha, hps⟩
        · exact Or.inl ⟨item, Or.inl rfl, h.symm, by simp [hp]⟩
        · exact Or.inr h
      · rintro (⟨it, hit | hit, hsha, hps⟩ | h)
        · subst hit
          exact Or.inr (Or.inl hsha.symm)
        · exact Or.inl ⟨it, hit, hsha, hps⟩
        · exact Or.inr (Or.inr h)
    | none =>
      simp only [stashRevsAux, hp]
      rw [ih]
      simp only [List.mem_cons]
      constructor
      · rintro (⟨it, hit, hsha, hps⟩ | h)
        · exact Or.inl ⟨it, Or.inr hit, hsha, hps⟩
        · exact Or.inr h
      · rintro (⟨it, hit | hit, hsha, hps⟩ | h)
        · subst hit
          rw [hp] at hps
          cases hps
        · exact Or.inl ⟨it, hit, hsha, hps⟩
        · exact Or.inr h

theorem stashRevsAux_lookup (stash : List GitStashItem) :
    ∀ (i0 : Nat) (acc : List (List Char × StashEntry)) (k : List Char)
      (e : StashEntry),
    dlookup k (stashRevsAux i0 stash acc) = some e →
    dlookup k acc = some e ∨
      ∃ j, ∃ hj : j < stash.length, (stash.get ⟨j, hj⟩).new_sha = k ∧
        ∃ m, parseStashMsg (pstrip (stash.get ⟨j, hj⟩).message) = some m ∧
          e = ⟨some (i0 + j), m.rev, m.baseline_rev, m.branch, some m.name⟩ := by
  induction stash with
  | nil =>
    intro i0 acc k e h
    exact Or.inl h
  | cons item rest ih =>
    intro i0 acc k e h
    cases hp : parseStashMsg (pstrip item.message) with
    | some m =>
      simp only [stashRevsAux, hp] at h
      rcases ih _ _ _ _ h with h2 | ⟨j, hj, hsha, m2, hm2, he⟩
      · rcases dlookup_dictInsert_eq_some h2 with ⟨hk, he⟩ | ⟨_, hacc⟩
        · refine Or.inr ⟨0, by simp, by simpa using hk.symm, m, by simpa using hp, ?_⟩
          simpa using he
        · exact Or.inl hacc
      · refine Or.inr ⟨j + 1, by simpa using hj, by simpa using hsha, m2,
          by simpa using hm2, ?_⟩
        rw [he]
        have harith : i0 + 1 + j = i0 + (j + 1) := by omega
        rw [harith]
    | none =>
      simp only [stashRevsAux, hp] at h
      rcases ih _ _ _ _ h with h2 | ⟨j, hj, hsha, m2, hm2, he⟩
      · exact Or.inl h2
      · refine Or.inr ⟨j + 1, by simpa using hj, by simpa using hsha, m2,
          by simpa using hm2, ?_⟩
        rw [he]
        have harith : i0 + 1 + j = i0 + (j + 1) := by omega
        rw [harith]

/-- Claim C10: with `revs = None`, the working set of `reproduce` is exactly
the parseable ledger entries — a stash commit id is scheduled iff some stash
entry with that id has a message matching the experiment stash grammar, and
each scheduled entry carries the parsed groups of such an entry together
with its stash index. -/
theorem C10_working_set (stash : List GitStashItem) :
    (∀ sha, (dlookup sha (reproduceToRun stash none)).isSome = true ↔
      ∃ item ∈ stash, item.new_sha = sha ∧
        (parseStashMsg (pstrip item.message)).isSome = true) ∧
    (∀ sha e, dlookup sha (reproduceToRun stash none) = some e →
      ∃ j, ∃ hj : j < stash.length, (stash.get ⟨j, hj⟩).new_sha = sha ∧
        ∃ m, parseStashMsg (pstrip (stash.get ⟨j, hj⟩).message) = some m ∧
          e = ⟨some j, m.rev, m.baseline_rev, m.branch, some m.name⟩) := by
  constructor
  · intro sha
    have h := stashRevsAux_isSome stash 0 [] sha
    simpa [reproduceToRun, stashRevs, dlookup] using h
  · intro sha e h
    have h0 : dlookup sha (stashRevsAux 0 stash []) = some e := h
    rcases stashRevsAux_lookup stash 0 [] sha e h0 with h2 | ⟨j, hj, hsha, m, hm, he⟩
    · simp [dlookup] at h2
    · exact ⟨j, hj, hsha, m, hm, by simpa using he⟩

/-- Witness for C10_working_set on the concrete one-entry stash. -/
theorem C10_working_set_witness :
    ∃ j, ∃ hj : j < stashW.length, (stashW.get ⟨j, hj⟩).new_sha = ['s'] ∧
      ∃ m, parseStashMsg (pstrip (stashW.get ⟨j, hj⟩).message) = some m ∧
        (⟨some 0, ['a'], ['b'], none, some ['n']⟩ : StashEntry) =
          ⟨some j, m.rev, m.baseline_rev, m.branch, some m.name⟩ :=
  (C10_working_set stashW).2 ['s'] ⟨some 0, ['a'], ['b'], none, some ['n']⟩
    (by decide)

theorem mem_of_dlookup_eq_some {α β : Type} [DecidableEq α] {k : α} {v : β}
    {d : List (α × β)} (h : dlookup k d = some v) : (k, v) ∈ d := by
  induction d with
  | nil => cases h
  | cons p rest ih =>
    obtain ⟨k0, v0⟩ := p
    by_cases h0 : k0 = k
    · subst h0
      simp [dlookup] at h
      simp [h]
    · simp [dlookup, h0] at h
      simp [ih h]

theorem dlookup_isSome_of_mem {α β : Type} [DecidableEq α] {k : α} {v : β}
    {d : List (α × β)} (h : (k, v) ∈ d) : (dlookup k d).isSome = true := by
  induction d with
  | nil => cases h
  | cons p rest ih =>
    obtain ⟨k0, v0⟩ := p
    rcases List.mem_cons.mp h with h | h
    · obtain ⟨rfl, rfl⟩ := Prod.mk.inj h.symm
      simp [dlookup]
    · by_cases h0 : k0 = k
      · simp [dlookup, h0]
      · simp [dlookup, h0]
        exact ih h

theorem mem_dictInsert {α β : Type} [DecidableEq α] {q : α × β} {k : α} {v : β}
    {d : List (α × β)} (h : q ∈ dictInsert k v d) : q = (k, v) ∨ q ∈ d := by
  induction d with
  | nil => simpa [dictInsert] using h
  | cons p rest ih =>
    obtain ⟨k0, v0⟩ := p
    by_cases h0 : k0 = k
    · simp only [dictInsert, if_pos h0] at h
      rcases List.mem_cons.mp h with h | h
      · exact Or.inl h
      · exact Or.inr (List.mem_cons.mpr (Or.inr h))
    · simp only [dictInsert, if_neg h0] at h
      rcases List.mem_cons.mp h with h | h
      · exact Or.inr (List.mem_cons.mpr (Or.inl h))
      · rcases ih h with h | h
        · exact Or.inl h
        · exact Or.inr (List.mem_cons.mpr (Or.inr h))

theorem mem_dictUpdate {α β : Type} [DecidableEq α] {q : α × β}
    {kvs : List (α × β)} :
    ∀ {d : List (α × β)}, q ∈ dictUpdate d kvs → q ∈ d ∨ q ∈ kvs := by
  induction kvs with
  | nil => intro d h; exact Or.inl h
  | cons kv rest ih =>
    intro d h
    rcases ih h with h | h
    · rcases mem_dictInsert h with h | h
      · exact Or.inr (by simp [h])
      · exact Or.inl h
    · exact Or.inr (List.mem_cons.mpr (Or.inr h))

theorem dlookup_dictUpdate_eq_some {α β : Type} [DecidableEq α] {q : α} {w : β}
    {kvs : List (α × β)} :
    ∀ {d : List (α × β)}, dlookup q (dictUpdate d kvs) = some w →
      (q, w) ∈ kvs ∨ dlookup q d = some w := by
  induction kvs with
  | nil => intro d h; exact Or.inr h
  | cons kv rest ih =>
    intro d h
    rcases ih h with h | h
    · exact Or.inl (List.mem_cons.mpr (Or.inr h))
    · rcases dlookup_dictInsert_eq_some h with ⟨rfl, rfl⟩ | ⟨_, h⟩
      · exact Or.inl (by simp)
      · exact Or.inr h

theorem dlookup_dictUpdate_isSome {α β : Type} [DecidableEq α] (q : α)
    (kvs : List (α × β)) :
    ∀ (d : List (α × β)), (dlookup q (dictUpdate d kvs)).isSome = true ↔
      (dlookup q d).isSome = true ∨ ∃ v, (q, v) ∈ kvs := by
  induction kvs with
  | nil => intro d; simp [dictUpdate]
  | cons kv rest ih =>
    intro d
    have step : dictUpdate d (kv :: rest) = dictUpdate (dictInsert kv.1 kv.2 d) rest := rfl
    rw [step, ih, dlookup_dictInsert_isSome]
    constructor
    · rintro ((h | h) | ⟨v, hv⟩)
      · exact Or.inr ⟨kv.2, by simp [h]⟩
      · exact Or.inl h
      · exact Or.inr ⟨v, List.mem_cons.mpr (Or.inr hv)⟩
    · rintro (h | ⟨v, hv⟩)
      · exact Or.inl (Or.inr h)
      · rcases List.mem_cons.mp hv with hv | hv
        · exact Or.inl (Or.inl (by simp [← hv]))
        · exact Or.inr ⟨v, hv⟩

theorem dlookup_foldl_update_eq_some {α β γ : Type} [DecidableEq α]
    {q : α} {w : β} (l : List (γ × List (α × β))) :
    ∀ (a : List (α × β)),
    dlookup q (l.foldl (fun acc p => dictUpdate acc p.2) a) = some w →
    dlookup q a = some w ∨ ∃ p ∈ l, (q, w) ∈ p.2 := by
  induction l with
  | nil => intro a h; exact Or.inl h
  | cons p rest ih =>
    intro a h
    rcases ih _ h with h | ⟨p2, hp2, hm⟩
    · rcases dlookup_dictUpdate_eq_some h with h | h
      · exact Or.inr ⟨p, by simp, h⟩
      · exact Or.inl h
    · exact Or.inr ⟨p2, List.mem_cons.mpr (Or.inr hp2), hm⟩

theorem dlookup_foldl_update_isSome {α β γ : Type} [DecidableEq α]
    (q : α) (l : List (γ × List (α × β))) :
    ∀ (a : List (α × β)),
    (dlookup q (l.foldl (fun acc p => dictUpdate acc p.2) a)).isSome = true ↔
      (dlookup q a).isSome = true ∨ ∃ p ∈ l, ∃ v, (q, v) ∈ p.2 := by
  induction l with
  | nil => intro a; simp
  | cons p rest ih =>
    intro a
    rw [List.foldl_cons, ih, dlookup_dictUpdate_isSome]
    constructor
    · rintro ((h | ⟨v, hv⟩) | ⟨p2, hp2, v, hv⟩)
      · exact Or.inl h
      · exact Or.inr ⟨p, by simp, v, hv⟩
      · exact Or.inr ⟨p2, List.mem_cons.mpr (Or.inr hp2), v, hv⟩
    · rintro (h | ⟨p2, hp2, v, hv⟩)
      · exact Or.inl (Or.inl h)
      · rcases List.mem_cons.mp hp2 with hp2 | hp2
        · subst hp2
          exact Or.inl (Or.inr ⟨v, hv⟩)
        · exact Or.inr ⟨p2, hp2, v, hv⟩

theorem reproduceExecResultsAux_no_cancel (outcomes : List (List Char × WorkerOutcome)) :
    ∀ (res0 : List (List Char × List (List Char × List Char))),
    (∀ p ∈ outcomes, p.2 ≠ WorkerOutcome.cancelled) →
    reproduceExecResultsAux outcomes res0 = .ok (outcomes.foldl execStep res0) := by
  induction outcomes with
  | nil => intro res0 _; rfl
  | cons o rest ih =>
    intro res0 h
    obtain ⟨orev, oout⟩ := o
    cases oout with
    | success coll => exact ih _ (fun p hp => h p (List.mem_cons.mpr (Or.inr hp)))
    | failed ck => exact ih _ (fun p hp => h p (List.mem_cons.mpr (Or.inr hp)))
    | cancelled =>
      exact absurd rfl (h (orev, WorkerOutcome.cancelled) (List.mem_cons.mpr (Or.inl rfl)))

theorem reproduceExecResultsAux_cancel (outcomes : List (List Char × WorkerOutcome)) :
    ∀ (res0 : List (List Char × List (List Char × List Char))) (rev : List Char),
    (rev, WorkerOutcome.cancelled) ∈ outcomes →
    reproduceExecResultsAux outcomes res0 = .error ReproduceAbort.cancelledError := by
  induction outcomes with
  | nil => intro res0 rev h; cases h
  | cons o rest ih =>
    intro res0 rev h
    obtain ⟨orev, oout⟩ := o
    cases oout with
    | success coll =>
      rcases List.mem_cons.mp h with heq | hmem
      · simp at heq
      · exact ih _ rev hmem
    | failed ck =>
      rcases List.mem_cons.mp h with heq | hmem
      · simp at heq
      · exact ih _ rev hmem
    | cancelled => rfl

theorem execResults_mem_sound (outcomes : List (List Char × WorkerOutcome)) :
    ∀ (res0 : List (List Char × List (List Char × List Char)))
      (p : List Char × List (List Char × List Char)),
    p ∈ outcomes.foldl execStep res0 →
    ∀ k v, (k, v) ∈ p.2 →
      (∃ coll, (p.1, WorkerOutcome.success coll) ∈ outcomes ∧ (k, v) ∈ coll) ∨
      (∃ d0, (p.1, d0) ∈ res0 ∧ (k, v) ∈ d0) := by
  induction outcomes with
  | nil =>
    intro res0 p hp k v hkv
    exact Or.inr ⟨p.2, by simpa using hp, hkv⟩
  | cons o rest ih =>
    intro res0 p hp k v hkv
    obtain ⟨orev, oout⟩ := o
    cases oout with
    | success coll =>
      have hstep : (List.foldl execStep res0 ((orev, WorkerOutcome.success coll) :: rest)) =
          List.foldl execStep
            (dictInsert orev (dictUpdate ((dlookup orev res0).getD []) coll) res0)
            rest := rfl
      rw [hstep] at hp
      rcases ih _ p hp k v hkv with ⟨c2, hc2, hm⟩ | ⟨d0, hd0, hm⟩
      · exact Or.inl ⟨c2, List.mem_cons.mpr (Or.inr hc2), hm⟩
      · rcases mem_dictInsert hd0 with hq | hq
        · obtain ⟨h1, h2⟩ := Prod.mk.inj hq
          rw [h2] at hm
          rcases mem_dictUpdate hm with hm | hm
          · cases hl : dlookup orev res0 with
            | some dold =>
              rw [hl] at hm
              refine Or.inr ⟨dold, ?_, hm⟩
              rw [h1]
              exact mem_of_dlookup_eq_some hl
            | none =>
              rw [hl] at hm
              cases hm
          · refine Or.inl ⟨coll, ?_, hm⟩
            rw [h1]
            simp
        · exact Or.inr ⟨d0, hq, hm⟩
    | failed ck =>
      have hstep : (List.foldl execStep res0 ((orev, WorkerOutcome.failed ck) :: rest)) =
          List.foldl execStep res0 rest := rfl
      rw [hstep] at hp
      rcases ih _ p hp k v hkv with ⟨c2, hc2, hm⟩ | h
      · exact Or.inl ⟨c2, List.mem_cons.mpr (Or.inr hc2), hm⟩
      · exact Or.inr h
    | cancelled =>
      have hstep : (List.foldl execStep res0 ((orev, WorkerOutcome.cancelled) :: rest)) =
          List.foldl execStep res0 rest := rfl
      rw [hstep] at hp
      rcases ih _ p hp k v hkv with ⟨c2, hc2, hm⟩ | h
      · exact Or.inl ⟨c2, List.mem_cons.mpr (Or.inr hc2), hm⟩
      · exact Or.inr h

theorem execResults_fold_mono (outcomes : List (List Char × WorkerOutcome)) :
    ∀ (res0 : List (List Char × List (List Char × List Char)))
      (rev : List Char) (d : List (List Char × List Char)) (k : List Char),
    dlookup rev res0 = some d → (dlookup k d).isSome = true →
    ∃ d2, dlookup rev (outcomes.foldl execStep res0) = some d2 ∧
      (dlookup k d2).isSome = true := by
  induction outcomes with
  | nil => intro res0 rev d k hd hk; exact ⟨d, hd, hk⟩
  | cons o rest ih =>
    intro res0 rev d k hd hk
    obtain ⟨orev, oout⟩ := o
    cases oout with
    | success coll =>
      have hstep : (List.foldl execStep res0 ((orev, WorkerOutcome.success coll) :: rest)) =
          List.foldl execStep
            (dictInsert orev (dictUpdate ((dlookup orev res0).getD []) coll) res0)
            rest := rfl
      rw [hstep]
      by_cases hrev : rev = orev
      · subst hrev
        refine ih _ rev _ k (dlookup_dictInsert_self _ _ _) ?_
        rw [hd]
        rw [dlookup_dictUpdate_isSome]
        exact Or.inl hk
      · exact ih _ rev d k (by rwa [dlookup_dictInsert_ne hrev]) hk
    | failed ck =>
      have hstep : (List.foldl execStep res0 ((orev, WorkerOutcome.failed ck) :: rest)) =
          List.foldl execStep res0 rest := rfl
      rw [hstep]
      exact ih _ rev d k hd hk
    | cancelled =>
      have hstep : (List.foldl execStep res0 ((orev, WorkerOutcome.cancelled) :: rest)) =
          List.foldl execStep res0 rest := rfl
      rw [hstep]
      exact ih _ rev d k hd hk

theorem execResults_fold_complete (outcomes : List (List Char × WorkerOutcome)) :
    ∀ (res0 : List (List Char × List (List Char × List Char)))
      (rev : List Char) (coll : List (List Char × List Char)) (k : List Char),
    (rev, WorkerOutcome.success coll) ∈ outcomes → (∃ v, (k, v) ∈ coll) →
    ∃ d, dlookup rev (outcomes.foldl execStep res0) = some d ∧
      (dlookup k d).isSome = true := by
  induction outcomes with
  | nil => intro res0 rev coll k h; cases h
  | cons o rest ih =>
    intro res0 rev coll k h hv
    rcases List.mem_cons.mp h with heq | hmem
    · rw [← heq]
      have hstep : (List.foldl execStep res0 ((rev, WorkerOutcome.success coll) :: rest)) =
          List.foldl execStep
            (dictInsert rev (dictUpdate ((dlookup rev res0).getD []) coll) res0)
            rest := rfl
      rw [hstep]
      refine execResults_fold_mono rest _ rev _ k (dlookup_dictInsert_self _ _ _) ?_
      rw [dlookup_dictUpdate_isSome]
      exact Or.inr hv
    · clear h
      obtain ⟨orev, oout⟩ := o
      cases oout with
      | success coll2 =>
        have hstep : (List.foldl execStep res0
            ((orev, WorkerOutcome.success coll2) :: rest)) =
            List.foldl execStep
              (dictInsert orev (dictUpdate ((dlookup orev res0).getD []) coll2) res0)
              rest := rfl
        rw [hstep]
        exact ih _ rev coll k hmem hv
      | failed ck =>
        have hstep : (List.foldl execStep res0 ((orev, WorkerOutcome.failed ck) :: rest)) =
            List.foldl execStep res0 rest := rfl
        rw [hstep]
        exact ih _ rev coll k hmem hv
      | cancelled =>
        have hstep : (List.foldl execStep res0 ((orev, WorkerOutcome.cancelled) :: rest)) =
            List.foldl execStep res0 rest := rfl
        rw [hstep]
        exact ih _ rev coll k hmem hv


/-- Claim C4 counterexample: a worker for input rev `aa` succeeds, producing
experiment commit `bb` with content hash `h`; the mapping `reproduce`
returns is keyed by the resulting commit `bb`, so the successfully executed
input rev `aa` is not contained in it, contradicting "contains exactly the
successfully executed revs, each input rev mapped".  Moreover a batch whose
worker for rev `cc` was cancelled does not return a mapping at all:
`future.exception()` raises `CancelledError` outside the `try:` (line 528),
the `except` at line 544 never catches it, and `reproduce` aborts —
contradicting "revs whose worker was cancelled are absent from the returned
mapping". -/
theorem C4_counterexample :
    reproduceResult [(['a', 'a'], WorkerOutcome.success [(['b', 'b'], ['h'])])] =
      .ok [(['b', 'b'], ['h'])] ∧
    dlookup ['a', 'a'] [(['b', 'b'], ['h'])] = (none : Option (List Char)) ∧
    reproduceResult [(['a', 'a'], WorkerOutcome.success [(['b', 'b'], ['h'])]),
        (['c', 'c'], WorkerOutcome.cancelled)] =
      .error ReproduceAbort.cancelledError :=
  ⟨rfl, by decide, rfl⟩

/-- Claim C4 (amended): when any worker was cancelled, `reproduce` aborts
with the uncaught `CancelledError` raised by `future.exception()` and
returns no mapping; when it does return a mapping, that mapping is the union
of the collections of exactly the successfully executed revs — a commit is a
key iff some successful worker collected it as a resulting experiment commit
(mapped to its content hash), every entry comes from such a collection, and
revs whose worker failed contribute nothing. -/
theorem C4_result (outcomes : List (List Char × WorkerOutcome)) :
    (∀ rev, (rev, WorkerOutcome.cancelled) ∈ outcomes →
      reproduceResult outcomes = .error ReproduceAbort.cancelledError) ∧
    (∀ res, reproduceResult outcomes = .ok res →
      (∀ k, (dlookup k res).isSome = true ↔
        ∃ rev coll, (rev, WorkerOutcome.success coll) ∈ outcomes ∧
          ∃ v, (k, v) ∈ coll) ∧
      (∀ k v, dlookup k res = some v →
        ∃ rev coll, (rev, WorkerOutcome.success coll) ∈ outcomes ∧ (k, v) ∈ coll)) := by
  constructor
  · intro rev hmem
    have h := reproduceExecResultsAux_cancel outcomes [] rev hmem
    simp [reproduceResult, reproduceExecResults, h]
  · intro res hres
    by_cases hcan : ∃ rev, (rev, WorkerOutcome.cancelled) ∈ outcomes
    · obtain ⟨rev, hmem⟩ := hcan
      have h := reproduceExecResultsAux_cancel outcomes [] rev hmem
      rw [show reproduceResult outcomes =
          (match reproduceExecResults outcomes with
           | .error e => .error e
           | .ok r => .ok (r.foldl (fun acc p => dictUpdate acc p.2) []))
        from rfl] at hres
      rw [show reproduceExecResults outcomes = reproduceExecResultsAux outcomes []
        from rfl, h] at hres
      cases hres
    · have hnc : ∀ p ∈ outcomes, p.2 ≠ WorkerOutcome.cancelled := by
        intro p hp hpc
        refine hcan ⟨p.1, ?_⟩
        rw [← hpc, Prod.mk.eta]
        exact hp
      have hok := reproduceExecResultsAux_no_cancel outcomes [] hnc
      rw [show reproduceResult outcomes =
          (match reproduceExecResults outcomes with
           | .error e => .error e
           | .ok r => .ok (r.foldl (fun acc p => dictUpdate acc p.2) []))
        from rfl] at hres
      rw [show reproduceExecResults outcomes = reproduceExecResultsAux outcomes []
        from rfl, hok] at hres
      have hres2 : res =
          (outcomes.foldl execStep []).foldl (fun acc p => dictUpdate acc p.2) [] :=
        (Except.ok.inj hres).symm
      subst hres2
      constructor
      · intro k
        rw [dlookup_foldl_update_isSome]
        constructor
        · rintro (h | ⟨p, hp, v, hv⟩)
          · simp [dlookup] at h
          · rcases execResults_mem_sound outcomes [] p hp k v hv with
              ⟨coll, hc, hm⟩ | ⟨d0, hd0, _⟩
            · exact ⟨p.1, coll, hc, v, hm⟩
            · cases hd0
        · rintro ⟨rev, coll, hin, v, hv⟩
          right
          rcases execResults_fold_complete outcomes [] rev coll k hin ⟨v, hv⟩ with
            ⟨d, hd, hk⟩
          refine ⟨(rev, d), mem_of_dlookup_eq_some hd, ?_⟩
          obtain ⟨v2, hv2⟩ := Option.isSome_iff_exists.mp hk
          exact ⟨v2, mem_of_dlookup_eq_some hv2⟩
      · intro k v h
        rcases dlookup_foldl_update_eq_some _ _ h with h | ⟨p, hp, hm⟩
        · simp [dlookup] at h
        · rcases execResults_mem_sound outcomes [] p hp k v hm with
            ⟨coll, hc, hmm⟩ | ⟨d0, hd0, _⟩
          · exact ⟨p.1, coll, hc, hmm⟩
          · cases hd0

/-- Witness for C4_result: in a batch with one successful and one failed
worker the collected pair of the successful worker is traced back through
the returned mapping, and in a batch containing a cancelled worker the call
aborts with the uncaught CancelledError. -/
theorem C4_result_witness :
    (∃ rev coll,
      (rev, WorkerOutcome.success coll) ∈
        [(['a', 'a'], WorkerOutcome.success [(['b', 'b'], ['h'])]),
         (['c', 'c'], WorkerOutcome.failed false)] ∧
      (['b', 'b'], ['h']) ∈ coll) ∧
    reproduceResult [(['a', 'a'], WorkerOutcome.success [(['b', 'b'], ['h'])]),
        (['c', 'c'], WorkerOutcome.cancelled)] =
      .error ReproduceAbort.cancelledError :=
  ⟨((C4_result
      [(['a', 'a'], WorkerOutcome.success [(['b', 'b'], ['h'])]),
       (['c', 'c'], WorkerOutcome.failed false)]).2
      [(['b', 'b'], ['h'])] rfl).2 ['b', 'b'] ['h'] (by decide),
   (C4_result
      [(['a', 'a'], WorkerOutcome.success [(['b', 'b'], ['h'])]),
       (['c', 'c'], WorkerOutcome.cancelled)]).1 ['c', 'c'] (by decide)⟩

theorem mem_insertDesc {x a : Nat} {l : List Nat} :
    a ∈ insertDesc x l ↔ a = x ∨ a ∈ l := by
  induction l with
  | nil => simp [insertDesc]
  | cons y ys ih =>
    by_cases h : y ≤ x
    · simp only [insertDesc, if_pos h, List.mem_cons]
    · simp only [insertDesc, if_neg h, List.mem_cons, ih]
      tauto

theorem insertDesc_perm (x : Nat) (l : List Nat) :
    List.Perm (insertDesc x l) (x :: l) := by
  induction l with
  | nil => exact List.Perm.refl _
  | cons y ys ih =>
    by_cases h : y ≤ x
    · rw [show insertDesc x (y :: ys) = x :: y :: ys from by simp [insertDesc, h]]
    · rw [show insertDesc x (y :: ys) = y :: insertDesc x ys from by
        simp [insertDesc, h]]
      exact (ih.cons y).trans (List.Perm.swap x y ys)

theorem sortDesc_perm (l : List Nat) : List.Perm (sortDesc l) l := by
  induction l with
  | nil => exact List.Perm.refl _
  | cons x xs ih =>
    have hstep : sortDesc (x :: xs) = insertDesc x (sortDesc xs) := rfl
    rw [hstep]
    exact (insertDesc_perm x (sortDesc xs)).trans (ih.cons x)

theorem insertDesc_sorted {x : Nat} {l : List Nat}
    (h : List.Sorted (fun a b => b ≤ a) l) :
    List.Sorted (fun a b => b ≤ a) (insertDesc x l) := by
  induction l with
  | nil => simp [insertDesc]
  | cons y ys ih =>
    rw [List.sorted_cons] at h
    by_cases hxy : y ≤ x
    · rw [show insertDesc x (y :: ys) = x :: y :: ys from by simp [insertDesc, hxy]]
      rw [List.sorted_cons]
      refine ⟨?_, List.sorted_cons.mpr h⟩
      intro b hb
      rcases List.mem_cons.mp hb with rfl | hb
      · exact hxy
      · exact le_trans (h.1 b hb) hxy
    · rw [show insertDesc x (y :: ys) = y :: insertDesc x ys from by
        simp [insertDesc, hxy]]
      rw [List.sorted_cons]
      refine ⟨?_, ih h.2⟩
      intro b hb
      rcases mem_insertDesc.mp hb with rfl | hb
      · omega
      · exact h.1 b hb

theorem sortDesc_sorted (l : List Nat) :
    List.Sorted (fun a b => b ≤ a) (sortDesc l) := by
  induction l with
  | nil => simp [sortDesc]
  | cons x xs ih => exact insertDesc_sorted ih

theorem sortDesc_strictDesc {l : List Nat} (h : l.Nodup) :
    List.Pairwise (fun a b => b < a) (sortDesc l) := by
  have hs := sortDesc_sorted l
  have hn : (sortDesc l).Nodup := ((sortDesc_perm l).nodup_iff).mpr h
  exact (hs.and hn).imp (fun hab => lt_of_le_of_ne hab.1 (Ne.symm hab.2))

theorem stashRevs_index_inj (stash : List GitStashItem) {k1 k2 : List Char}
    {e1 e2 : StashEntry} (h1 : dlookup k1 (stashRevs stash) = some e1)
    (h2 : dlookup k2 (stashRevs stash) = some e2) (hne : k1 ≠ k2)
    {i : Nat} (hi1 : e1.index = some i) (hi2 : e2.index = some i) : False := by
  rcases stashRevsAux_lookup stash 0 [] k1 e1 h1 with h | ⟨j1, hj1, hsha1, m1, hm1, he1⟩
  · simp [dlookup] at h
  rcases stashRevsAux_lookup stash 0 [] k2 e2 h2 with h | ⟨j2, hj2, hsha2, m2, hm2, he2⟩
  · simp [dlookup] at h
  rw [he1] at hi1
  rw [he2] at hi2
  have hij1 : j1 = i := by simpa using hi1
  have hij2 : j2 = i := by simpa using hi2
  obtain rfl : j1 = j2 := by omega
  exact hne (hsha1.symm.trans hsha2)

theorem drop_indices_nodup (stash : List GitStashItem) (keys : List (List Char))
    (hkeys : keys.Nodup) :
    (keys.filterMap
      (fun rev => (dlookup rev (stashRevs stash)).bind (fun e => e.index))).Nodup := by
  refine List.Nodup.filterMap ?_ hkeys
  intro a a' b hb hb'
  rw [Option.mem_def, Option.bind_eq_some] at hb hb'
  obtain ⟨e, he, hei⟩ := hb
  obtain ⟨e', he', hei'⟩ := hb'
  by_contra hne
  exact stashRevs_index_inj stash he he' hne hei hei'

/-- Claim C3: with `keep_stash` true, the dropped ledger indices are exactly
those of working-set entries whose rev executed successfully; with
`keep_stash` false, those of every working-set rev that is a ledger entry;
and in both cases `stash.drop` is called in strictly descending index
order.  `toRunKeys` and `execKeys` are the (distinct) keys of `to_run` and
of the successful exec results, the latter a subset of the former. -/
theorem C3_prune (stash : List GitStashItem) (toRunKeys execKeys : List (List Char))
    (keep : Bool) (hToRun : toRunKeys.Nodup) (hExec : execKeys.Nodup)
    (hsub : ∀ r ∈ execKeys, r ∈ toRunKeys) :
    (keep = true →
      ∀ i, i ∈ reproduceToDrop (stashRevs stash) toRunKeys execKeys keep ↔
        ∃ r, r ∈ toRunKeys ∧ r ∈ execKeys ∧
          ∃ e, dlookup r (stashRevs stash) = some e ∧ e.index = some i) ∧
    (keep = false →
      ∀ i, i ∈ reproduceToDrop (stashRevs stash) toRunKeys execKeys keep ↔
        ∃ r, r ∈ toRunKeys ∧
          ∃ e, dlookup r (stashRevs stash) = some e ∧ e.index = some i) ∧
    List.Pairwise (fun a b => b < a)
      (reproduceToDrop (stashRevs stash) toRunKeys execKeys keep) := by
  refine ⟨?_, ?_, ?_⟩
  · rintro rfl i
    rw [show reproduceToDrop (stashRevs stash) toRunKeys execKeys true =
        sortDesc (execKeys.filterMap
          (fun rev => (dlookup rev (stashRevs stash)).bind (fun e => e.index)))
      from rfl]
    rw [(sortDesc_perm _).mem_iff, List.mem_filterMap]
    constructor
    · rintro ⟨r, hr, hf⟩
      rw [Option.bind_eq_some] at hf
      obtain ⟨e, he, hei⟩ := hf
      exact ⟨r, hsub r hr, hr, e, he, hei⟩
    · rintro ⟨r, _, hr, e, he, hei⟩
      exact ⟨r, hr, by rw [Option.bind_eq_some]; exact ⟨e, he, hei⟩⟩
  · rintro rfl i
    rw [show reproduceToDrop (stashRevs stash) toRunKeys execKeys false =
        sortDesc (toRunKeys.filterMap
          (fun rev => (dlookup rev (stashRevs stash)).bind (fun e => e.index)))
      from rfl]
    rw [(sortDesc_perm _).mem_iff, List.mem_filterMap]
    constructor
    · rintro ⟨r, hr, hf⟩
      rw [Option.bind_eq_some] at hf
      obtain ⟨e, he, hei⟩ := hf
      exact ⟨r, hr, e, he, hei⟩
    · rintro ⟨r, hr, e, he, hei⟩
      exact ⟨r, hr, by rw [Option.bind_eq_some]; exact ⟨e, he, hei⟩⟩
  · cases keep with
    | true =>
      exact sortDesc_strictDesc (drop_indices_nodup stash execKeys hExec)
    | false =>
      exact sortDesc_strictDesc (drop_indices_nodup stash toRunKeys hToRun)

/-- Witness for C3_prune: the single successfully executed staged rev `s` of
`stashW` is dropped (index 0), in a batch where it is the whole working
set. -/
theorem C3_prune_witness :
    0 ∈ reproduceToDrop (stashRevs stashW) [['s']] [['s']] true :=
  ((C3_prune stashW [['s']] [['s']] true (by decide) (by decide) (by decide)).1
    rfl 0).mpr
    ⟨['s'], by decide, by decide,
      ⟨⟨some 0, ['a'], ['b'], none, some ['n']⟩, by decide, rfl⟩⟩

/-- Witness for C1_roundtrip at a concrete tuple. -/
theorem C1_roundtrip_witness :
    parseStashMsg ("commit: ".toList ++ stash_msg ['a'] ['b'] (some ['x']) (some ['n']))
      = some ⟨['a'], ['b'], ['n'], some ['x']⟩ :=
  C1_roundtrip ['a'] ['b'] ['n'] (some ['x'])
    (by decide) (by decide) (by decide)
    (by show ['x'] ≠ [] ∧ ∀ c ∈ ['x'], ¬(c = '\n'); decide)

end DvcExp
